import Mathlib

/-!
Verification of the terminal_gl rendering core.

Shallow embedding of the `terminal_gl` software rasterizer
(`src/terminal_gl/{geometry,matrix,camera,canvas,mesh,renderer}.rs`).

Modelling conventions:
* Rust `f32` values are modelled as exact rationals (`ℚ`); `f32` rounding is
  not modelled.  All algorithms under study are branch-and-arithmetic code, so
  the rational embedding follows the source line by line.
* Rust `i32` is modelled as `ℤ`, `usize`/`u8` as `ℕ`.  The `as i32` cast of an
  `f32` truncates toward zero and is modelled by `truncToInt`.
* Terminal output (`print!`/escape sequences) is pure I-O and is elided; only
  the state carried by the data structures is modelled.
* `Vec<T>` becomes `List T`; pushing appends at the end, popping takes from
  the end.
-/

/-- Truncation toward zero, the semantics of Rust's `f32 as i32` cast
(saturation at the `i32` range is not modelled; all inputs considered here are
tiny). -/
def truncToInt (q : ℚ) : ℤ :=
  if 0 ≤ q then ⌊q⌋ else ⌈q⌉

/-- Rust's `a..=b` loop range over integers: the integers from `a` to `b`
inclusive, empty when `b < a`. -/
def intRange (a b : ℤ) : List ℤ :=
  (List.range (b - a + 1).toNat).map (fun (i : ℕ) => a + (i : ℤ))

theorem length_intRange (a b : ℤ) : (intRange a b).length = (b - a + 1).toNat := by
  unfold intRange
  rw [List.length_map, List.length_range]

theorem mem_intRange {a b x : ℤ} : x ∈ intRange a b ↔ a ≤ x ∧ x ≤ b := by
  unfold intRange
  rw [List.mem_map]
  constructor
  · rintro ⟨i, hi, rfl⟩
    rw [List.mem_range] at hi
    omega
  · intro ⟨h1, h2⟩
    refine ⟨(x - a).toNat, ?_, ?_⟩
    · rw [List.mem_range]; omega
    · omega

/-- 2D vector of `f32` (geometry.rs, `Vec2`). -/
structure Vec2 where
  x : ℚ
  y : ℚ
deriving DecidableEq, Repr

/-- 3D vector of `f32` (geometry.rs, `Vec3`). -/
structure Vec3 where
  x : ℚ
  y : ℚ
  z : ℚ
deriving DecidableEq, Repr

/-- geometry.rs, `Vec3::dot`. -/
def Vec3.dot (a b : Vec3) : ℚ :=
  a.x * b.x + a.y * b.y + a.z * b.z

/-- geometry.rs, `Vec3::cross`. -/
def Vec3.cross (a b : Vec3) : Vec3 :=
  ⟨a.y * b.z - a.z * b.y, a.z * b.x - a.x * b.z, a.x * b.y - a.y * b.x⟩

/-- geometry.rs, `Color` (three `u8` channels). -/
structure Color where
  r : ℕ
  g : ℕ
  b : ℕ
deriving DecidableEq, Repr

/-- matrix.rs, `Mat4`: 4×4 row-major matrix of `f32`. -/
@[ext]
structure Mat4 where
  m : Fin 4 → Fin 4 → ℚ

/-- matrix.rs, `Mat4::identity`. -/
def Mat4.identity : Mat4 :=
  ⟨fun i j => if i = j then 1 else 0⟩

/-- matrix.rs, `Mat4::zero`. -/
def Mat4.zero : Mat4 :=
  ⟨fun _ _ => 0⟩

/-- matrix.rs, `Mat4::multiply`: `result.m[i][j]` accumulates
`self.m[i][k] * other.m[k][j]` for `k = 0..4` starting from zero. -/
def Mat4.multiply (a b : Mat4) : Mat4 :=
  ⟨fun i j => 0 + a.m i 0 * b.m 0 j + a.m i 1 * b.m 1 j
      + a.m i 2 * b.m 2 j + a.m i 3 * b.m 3 j⟩

/-- matrix.rs, `Mat4::transform_point`: homogeneous transform with perspective
divide performed only when the computed `w` is nonzero. -/
def Mat4.transform_point (mat : Mat4) (point : Vec3) : Vec3 :=
  let x := mat.m 0 0 * point.x + mat.m 0 1 * point.y + mat.m 0 2 * point.z + mat.m 0 3
  let y := mat.m 1 0 * point.x + mat.m 1 1 * point.y + mat.m 1 2 * point.z + mat.m 1 3
  let z := mat.m 2 0 * point.x + mat.m 2 1 * point.y + mat.m 2 2 * point.z + mat.m 2 3
  let w := mat.m 3 0 * point.x + mat.m 3 1 * point.y + mat.m 3 2 * point.z + mat.m 3 3
  if w ≠ 0 then ⟨x / w, y / w, z / w⟩ else ⟨x, y, z⟩

/-- matrix.rs, `Mat4::project_to_screen`: NDC → pixel coordinates with the
standard Y flip. -/
def Mat4.project_to_screen (mat : Mat4) (point : Vec3) (width height : ℚ) : Vec2 :=
  let transformed := mat.transform_point point
  ⟨(transformed.x + 1) * width * (1/2), (1 - transformed.y) * height * (1/2)⟩

/-- canvas.rs, `Coord`: an `i32` canvas coordinate. -/
structure Coord where
  x : ℤ
  y : ℤ
deriving DecidableEq, Repr

/-- canvas.rs, `ColoredCoord`: an `i32` coordinate with an 8-bit color. -/
structure ColoredCoord where
  x : ℤ
  y : ℤ
  r : ℕ
  g : ℕ
  b : ℕ
deriving DecidableEq, Repr

/-- canvas.rs, `Canvas`: three parallel channel buffers indexed by
`y * width + x` plus the list of coordinates written since the last full
clear. -/
structure Canvas where
  width : ℕ
  height : ℕ
  r : List ℕ
  g : List ℕ
  b : List ℕ
  changed_coords : List Coord
deriving DecidableEq, Repr

/-- canvas.rs, `Canvas::new`: zeroed `width*height` buffers, no changed
coordinates (the capacity hint has no observable effect). -/
def Canvas.new (width height : ℕ) : Canvas :=
  ⟨width, height, List.replicate (width * height) 0,
    List.replicate (width * height) 0, List.replicate (width * height) 0, []⟩

/-- canvas.rs, `Canvas::init`: fill all three buffers with `0` and drop the
changed list.  The subsequent `set_black` call only prints and is elided. -/
def Canvas.init (c : Canvas) : Canvas :=
  { c with
    r := c.r.map (fun _ => 0)
    g := c.g.map (fun _ => 0)
    b := c.b.map (fun _ => 0)
    changed_coords := [] }

/-- canvas.rs, `Canvas::set_pixel`: bounds-checked write into the three
buffers, recording the coordinate in `changed_coords`; out-of-range
coordinates are silently dropped. -/
def Canvas.set_pixel (c : Canvas) (x y : ℤ) (r g b : ℕ) : Canvas :=
  if x < 0 ∨ (c.width : ℤ) ≤ x ∨ y < 0 ∨ (c.height : ℤ) ≤ y then c
  else
    let idx := y.toNat * c.width + x.toNat
    { c with
      r := c.r.set idx r
      g := c.g.set idx g
      b := c.b.set idx b
      changed_coords := c.changed_coords ++ [⟨x, y⟩] }

/-- The body of canvas.rs `Canvas::set_pixels`: `while let Some(coord) =
pixels.pop()` writes each popped element through `set_pixel`.  Popping until
empty visits the vector's elements from the back to the front, so the loop is
the structural recursion below applied to the reversed list. -/
def setPixelsPopLoop (c : Canvas) : List ColoredCoord → Canvas
  | [] => c
  | coord :: rest => setPixelsPopLoop (c.set_pixel coord.x coord.y coord.r coord.g coord.b) rest

/-- canvas.rs, `Canvas::set_pixels`: drains the pixel vector from the back
through `set_pixel`; returns the updated canvas together with the (emptied)
vector. -/
def Canvas.set_pixels (c : Canvas) (pixels : List ColoredCoord) : Canvas × List ColoredCoord :=
  (setPixelsPopLoop c pixels.reverse, [])

/-- The body of the canvas.rs `Canvas::clear` loop: skip an out-of-range
changed coordinate, otherwise zero its three buffer entries. -/
def clearCoordStep (canv : Canvas) (coord : Coord) : Canvas :=
  if coord.x < 0 ∨ (canv.width : ℤ) ≤ coord.x ∨ coord.y < 0 ∨ (canv.height : ℤ) ≤ coord.y then
    canv
  else
    let idx := coord.y.toNat * canv.width + coord.x.toNat
    { canv with r := canv.r.set idx 0, g := canv.g.set idx 0, b := canv.b.set idx 0 }

/-- canvas.rs, `Canvas::clear`: zero the buffer entries of every (in-range)
changed coordinate; the changed list itself is left untouched. -/
def Canvas.clear (c : Canvas) : Canvas :=
  c.changed_coords.foldl clearCoordStep c

/-- canvas.rs, `Canvas::present`: the escape-sequence emission only prints and
is elided; the state effect is `changed_coords.retain(...)`, keeping exactly
the coordinates whose stored color is not fully black. -/
def Canvas.present (c : Canvas) : Canvas :=
  { c with
    changed_coords := c.changed_coords.filter
      (fun coord =>
        let idx := coord.y.toNat * c.width + coord.x.toNat
        !(c.r.getD idx 0 == 0 && c.g.getD idx 0 == 0 && c.b.getD idx 0 == 0)) }

/-- The loop of geometry.rs `draw_line`: walks `xs` (the major-axis range),
carrying the Bresenham state `y` and `error2`; a pixel is emitted only when it
lies inside the canvas bounds, with (x,y) swapped back in the steep case. -/
def drawLineLoop (w h : ℕ) (color : Color) (steep : Bool) (dx derror2 ystep : ℤ) :
    List ℤ → ℤ → ℤ → List ColoredCoord
  | [], _, _ => []
  | x :: xs, y, error2 =>
    let emitted : List ColoredCoord :=
      if steep then
        if 0 ≤ y ∧ y < (w : ℤ) ∧ 0 ≤ x ∧ x < (h : ℤ) then
          [⟨y, x, color.r, color.g, color.b⟩]
        else []
      else
        if 0 ≤ x ∧ x < (w : ℤ) ∧ 0 ≤ y ∧ y < (h : ℤ) then
          [⟨x, y, color.r, color.g, color.b⟩]
        else []
    let error2' := error2 + derror2
    if error2' > dx then
      emitted ++ drawLineLoop w h color steep dx derror2 ystep xs (y + ystep) (error2' - dx * 2)
    else
      emitted ++ drawLineLoop w h color steep dx derror2 ystep xs y error2'

/-- geometry.rs, `draw_line`: Bresenham line drawing; swaps axes when the line
is steep, then endpoints so iteration goes from the lower to the higher major
coordinate; appends the emitted pixels (modelled as the returned list). -/
def draw_line (x0 y0 x1 y1 : ℤ) (canvas : Canvas) (color : Color) : List ColoredCoord :=
  let steep : Bool := (x0 - x1).natAbs < (y0 - y1).natAbs
  let xa0 := if steep then y0 else x0
  let ya0 := if steep then x0 else y0
  let xa1 := if steep then y1 else x1
  let ya1 := if steep then x1 else y1
  let xb0 := if xa0 > xa1 then xa1 else xa0
  let yb0 := if xa0 > xa1 then ya1 else ya0
  let xb1 := if xa0 > xa1 then xa0 else xa1
  let yb1 := if xa0 > xa1 then ya0 else ya1
  let dx := xb1 - xb0
  let dy := yb1 - yb0
  let derror2 := |dy| * 2
  drawLineLoop canvas.width canvas.height color steep dx derror2
    (if yb1 > yb0 then 1 else -1) (intRange xb0 xb1) yb0 0

/-- The three conditional swaps at the head of geometry.rs
`draw_triangle_filled`, sorting the vertices by ascending `y`. -/
def sort3Y (q0 q1 q2 : Vec2) : Vec2 × Vec2 × Vec2 :=
  let a0 := if q0.y > q1.y then q1 else q0
  let a1 := if q0.y > q1.y then q0 else q1
  let b1 := if a1.y > q2.y then q2 else a1
  let b2 := if a1.y > q2.y then a1 else q2
  let c0 := if a0.y > b1.y then b1 else a0
  let c1 := if a0.y > b1.y then a0 else b1
  (c0, c1, b2)

/-- One scanline of geometry.rs `draw_triangle_filled` (the body of the
`for y in ...` loop), for already-sorted vertices `p0 p1 p2`: skipped when the
relevant half-segment height is below `0.1`, otherwise fills the interpolated
`[a, b]` span, dropping out-of-bounds pixels. -/
def filledScanline (p0 p1 p2 : Vec2) (canvas : Canvas) (color : Color) (y : ℤ) :
    List ColoredCoord :=
  let total_height := p2.y - p0.y
  let second_half : Prop := (y : ℚ) > p1.y ∨ p1.y = p0.y
  let segment_height := if second_half then p2.y - p1.y else p1.y - p0.y
  if segment_height < 1/10 then []
  else
    let alpha := ((y : ℚ) - p0.y) / total_height
    let beta := ((y : ℚ) - (if second_half then p1.y else p0.y)) / segment_height
    let a := p0.x + (p2.x - p0.x) * alpha
    let b := if second_half then p1.x + (p2.x - p1.x) * beta else p0.x + (p1.x - p0.x) * beta
    let lo := if a > b then b else a
    let hi := if a > b then a else b
    (intRange (truncToInt lo) (truncToInt hi)).filterMap
      (fun x =>
        if 0 ≤ x ∧ x < (canvas.width : ℤ) ∧ 0 ≤ y ∧ y < (canvas.height : ℤ) then
          some ⟨x, y, color.r, color.g, color.b⟩
        else none)

/-- geometry.rs, `draw_triangle_filled`: sort the vertices by `y`, skip the
whole triangle when the total height is below `0.1`, otherwise rasterize every
scanline from `p0.y as i32` to `p2.y as i32`. -/
def draw_triangle_filled (q0 q1 q2 : Vec2) (canvas : Canvas) (color : Color) :
    List ColoredCoord :=
  let s := sort3Y q0 q1 q2
  let p0 := s.1
  let p1 := s.2.1
  let p2 := s.2.2
  let total_height := p2.y - p0.y
  if total_height < 1/10 then []
  else
    (intRange (truncToInt p0.y) (truncToInt p2.y)).flatMap
      (filledScanline p0 p1 p2 canvas color)

/-- mesh.rs, `Vertex`: position plus (unused by the render paths) normal and
UV, defaulted as in `Vertex::new`. -/
structure Vertex where
  position : Vec3
  normal : Vec3 := ⟨0, 0, 1⟩
  uv : Vec2 := ⟨0, 0⟩
deriving DecidableEq, Repr

/-- mesh.rs, `Triangle`: three indices into the owning mesh's vertex list and
one flat color. -/
structure Triangle where
  v0 : ℕ
  v1 : ℕ
  v2 : ℕ
  color : Color
deriving DecidableEq, Repr

/-- mesh.rs, `Mesh::render_filled`.  The source first computes
`model_matrix = self.transform.to_matrix()` (trigonometric evaluation of the
Euler angles, outside the rational embedding) and then uses only rational
arithmetic; the embedding therefore takes the model matrix as an argument and
quantifies over it.  Rust indexes `vertices[...]` fatally on out-of-range
indices; the embedding uses `getD` with a default vertex.  Per triangle: the
back-face test takes the cross product of the two model-transformed edges and
dots it with the fixed view direction `(0,0,1)`; failing triangles are skipped
(`continue`), others are projected and rasterized via `draw_triangle_filled`,
pixels appended in order. -/
def Mesh.render_filled (canvas : Canvas) (view_projection model_matrix : Mat4)
    (vertices : List Vertex) (triangles : List Triangle) : List ColoredCoord :=
  let mvp := view_projection.multiply model_matrix
  triangles.flatMap (fun triangle =>
    let v0 := vertices.getD triangle.v0 ⟨⟨0, 0, 0⟩, ⟨0, 0, 1⟩, ⟨0, 0⟩⟩
    let v1 := vertices.getD triangle.v1 ⟨⟨0, 0, 0⟩, ⟨0, 0, 1⟩, ⟨0, 0⟩⟩
    let v2 := vertices.getD triangle.v2 ⟨⟨0, 0, 0⟩, ⟨0, 0, 1⟩, ⟨0, 0⟩⟩
    let world_v0 := model_matrix.transform_point v0.position
    let world_v1 := model_matrix.transform_point v1.position
    let world_v2 := model_matrix.transform_point v2.position
    let edge1 : Vec3 := ⟨world_v1.x - world_v0.x, world_v1.y - world_v0.y,
      world_v1.z - world_v0.z⟩
    let edge2 : Vec3 := ⟨world_v2.x - world_v0.x, world_v2.y - world_v0.y,
      world_v2.z - world_v0.z⟩
    let normal := edge1.cross edge2
    let view_dir : Vec3 := ⟨0, 0, 1⟩
    if normal.dot view_dir < 0 then []
    else
      let p0 := mvp.project_to_screen v0.position canvas.width canvas.height
      let p1 := mvp.project_to_screen v1.position canvas.width canvas.height
      let p2 := mvp.project_to_screen v2.position canvas.width canvas.height
      draw_triangle_filled p0 p1 p2 canvas triangle.color)

/-- The `f32` value of `std::f32::consts::PI` (the nearest `f32` to π),
as an exact rational: `13176795 / 2^22`. -/
def pi32 : ℚ := 13176795 / 4194304

/-- Rust `f32::to_radians`: `self * (PI / 180.0)` (f32 rounding of the two
operations is not modelled). -/
def toRadians (d : ℚ) : ℚ := d * (pi32 / 180)

/-- camera.rs, `Camera`: the yaw/pitch state acted on by `Camera::rotate`.
The remaining fields (position, forward/right/up, projection parameters) are
recomputed through trigonometric functions and are not read or written by the
pitch-clamping logic under study, so they are omitted from the embedding. -/
structure Camera where
  yaw : ℚ
  pitch : ℚ
deriving DecidableEq, Repr

/-- camera.rs, `Camera::rotate`: accumulate the deltas, then clamp pitch to
`[-89°, 89°]` in radians (`f32::clamp(lo, hi)` is `self.max(lo).min(hi)`).
The trailing `update_vectors`/`update_target` calls touch only the omitted
derived-vector fields. -/
def Camera.rotate (cam : Camera) (yaw_delta pitch_delta : ℚ) : Camera :=
  let yaw := cam.yaw + yaw_delta
  let pitch := cam.pitch + pitch_delta
  let pitch := min (max pitch (-toRadians 89)) (toRadians 89)
  ⟨yaw, pitch⟩

/-- The pixel-commit path of renderer.rs `Renderer::render` (lines 56–84):
`canvas.clear()`, the mesh loop appends every mesh's pixels to one shared list
(in scene order — this embedding takes that list as the argument `pixels`),
`canvas.set_pixels(&mut pixels)`, then `canvas.present()`.  The FPS update and
text overlay only print and are elided. -/
def Renderer.render_commit (canvas : Canvas) (pixels : List ColoredCoord) : Canvas :=
  ((canvas.clear.set_pixels pixels).1).present

/-- C9: for every `Mat4` M, `Mat4::identity().multiply(&M) == M` and
`M.multiply(&Mat4::identity()) == M` — the identity matrix is a two-sided unit
for `Mat4::multiply`. -/
theorem identity_multiply_unit (M : Mat4) :
    Mat4.identity.multiply M = M ∧ M.multiply Mat4.identity = M := by
  constructor <;>
    (ext i j; fin_cases i <;> fin_cases j <;>
      simp [Mat4.multiply, Mat4.identity])

/-- C5: for every `Mat4` and every point, `transform_point` performs the
homogeneous divide (returning `(x/w, y/w, z/w)`) exactly when the computed
homogeneous coordinate `w` is nonzero, and otherwise returns the undivided
`(x, y, z)`. -/
theorem transform_point_divides_iff_w_nonzero (mat : Mat4) (point : Vec3) :
    ((mat.m 3 0 * point.x + mat.m 3 1 * point.y + mat.m 3 2 * point.z + mat.m 3 3) ≠ 0 →
      mat.transform_point point =
        ⟨(mat.m 0 0 * point.x + mat.m 0 1 * point.y + mat.m 0 2 * point.z + mat.m 0 3) /
            (mat.m 3 0 * point.x + mat.m 3 1 * point.y + mat.m 3 2 * point.z + mat.m 3 3),
          (mat.m 1 0 * point.x + mat.m 1 1 * point.y + mat.m 1 2 * point.z + mat.m 1 3) /
            (mat.m 3 0 * point.x + mat.m 3 1 * point.y + mat.m 3 2 * point.z + mat.m 3 3),
          (mat.m 2 0 * point.x + mat.m 2 1 * point.y + mat.m 2 2 * point.z + mat.m 2 3) /
            (mat.m 3 0 * point.x + mat.m 3 1 * point.y + mat.m 3 2 * point.z + mat.m 3 3)⟩) ∧
    ((mat.m 3 0 * point.x + mat.m 3 1 * point.y + mat.m 3 2 * point.z + mat.m 3 3) = 0 →
      mat.transform_point point =
        ⟨mat.m 0 0 * point.x + mat.m 0 1 * point.y + mat.m 0 2 * point.z + mat.m 0 3,
          mat.m 1 0 * point.x + mat.m 1 1 * point.y + mat.m 1 2 * point.z + mat.m 1 3,
          mat.m 2 0 * point.x + mat.m 2 1 * point.y + mat.m 2 2 * point.z + mat.m 2 3⟩) := by
  constructor <;> intro h <;> simp [Mat4.transform_point, h]

/-- Witness for C5: both branches exercised at concrete inputs. -/
theorem transform_point_divides_iff_w_nonzero_witness :
    Mat4.identity.transform_point ⟨1, 2, 3⟩ = ⟨1, 2, 3⟩ ∧
    Mat4.zero.transform_point ⟨1, 2, 3⟩ = ⟨0, 0, 0⟩ := by
  constructor
  · have h := (transform_point_divides_iff_w_nonzero Mat4.identity ⟨1, 2, 3⟩).1 (by with_unfolding_all decide)
    rw [h]; with_unfolding_all decide
  · have h := (transform_point_divides_iff_w_nonzero Mat4.zero ⟨1, 2, 3⟩).2 (by with_unfolding_all decide)
    rw [h]; with_unfolding_all decide

/-- C8, counterexample: rotating with a large pitch delta leaves the pitch at
exactly `89°` in radians (`f32::clamp` is inclusive), so the pitch does NOT
lie strictly within the open interval `(-89°, 89°)`. -/
theorem rotate_pitch_can_reach_bound :
    ¬(-toRadians 89 < ((Camera.mk 0 0).rotate 0 10).pitch ∧
      ((Camera.mk 0 0).rotate 0 10).pitch < toRadians 89) := by
  with_unfolding_all decide

/-- C8, amended: after `Camera::rotate`, the pitch lies within the CLOSED
interval `[-89°, 89°]` expressed in radians. -/
theorem rotate_pitch_in_closed_range (cam : Camera) (yaw_delta pitch_delta : ℚ) :
    -toRadians 89 ≤ (cam.rotate yaw_delta pitch_delta).pitch ∧
    (cam.rotate yaw_delta pitch_delta).pitch ≤ toRadians 89 := by
  unfold Camera.rotate
  refine ⟨le_min (le_max_right _ _) (by with_unfolding_all decide), min_le_right _ _⟩

/-- C3, counterexample: a triangle whose upper half-segment (middle y minus
bottom y after sorting) is `1/20 < 0.1` is NOT skipped entirely —
`draw_triangle_filled` still emits pixels (from the lower half). -/
theorem thin_half_segment_still_draws :
    ((sort3Y ⟨0, 0⟩ ⟨10, 1/20⟩ ⟨0, 5⟩).2.1.y - (sort3Y ⟨0, 0⟩ ⟨10, 1/20⟩ ⟨0, 5⟩).1.y < 1/10) ∧
    draw_triangle_filled ⟨0, 0⟩ ⟨10, 1/20⟩ ⟨0, 5⟩ (Canvas.new 100 100) ⟨255, 255, 255⟩ ≠ [] := by
  constructor
  · with_unfolding_all decide
  · with_unfolding_all decide

/-- C3, amended: a total height below `0.1` skips the whole triangle, while a
half-segment height below `0.1` skips only the scanlines attributed to that
half-segment (each such scanline contributes no pixels); the other half still
renders. -/
theorem degenerate_triangle_skips (q0 q1 q2 : Vec2) (canvas : Canvas) (color : Color) :
    ((sort3Y q0 q1 q2).2.2.y - (sort3Y q0 q1 q2).1.y < 1/10 →
      draw_triangle_filled q0 q1 q2 canvas color = []) ∧
    (∀ (p0 p1 p2 : Vec2) (y : ℤ),
      (if (y : ℚ) > p1.y ∨ p1.y = p0.y then p2.y - p1.y else p1.y - p0.y) < 1/10 →
      filledScanline p0 p1 p2 canvas color y = []) := by
  constructor
  · intro h
    unfold draw_triangle_filled
    simp only [if_pos h]
  · intro p0 p1 p2 y h
    unfold filledScanline
    simp only [if_pos h]

/-- Witness for C3's amended theorem. -/
theorem degenerate_triangle_skips_witness :
    draw_triangle_filled ⟨0, 0⟩ ⟨10, 1/20⟩ ⟨0, 1/15⟩ (Canvas.new 100 100) ⟨255, 255, 255⟩ = [] ∧
    filledScanline ⟨0, 0⟩ ⟨10, 1/20⟩ ⟨0, 5⟩ (Canvas.new 100 100) ⟨255, 255, 255⟩ 0 = [] := by
  constructor
  · exact (degenerate_triangle_skips ⟨0, 0⟩ ⟨10, 1/20⟩ ⟨0, 1/15⟩ (Canvas.new 100 100)
      ⟨255, 255, 255⟩).1 (by with_unfolding_all decide)
  · exact (degenerate_triangle_skips ⟨0, 0⟩ ⟨10, 1/20⟩ ⟨0, 1/15⟩ (Canvas.new 100 100)
      ⟨255, 255, 255⟩).2 ⟨0, 0⟩ ⟨10, 1/20⟩ ⟨0, 5⟩ 0 (by with_unfolding_all decide)

theorem render_filled_append (canvas : Canvas) (vp mm : Mat4) (vs : List Vertex)
    (t1 t2 : List Triangle) :
    Mesh.render_filled canvas vp mm vs (t1 ++ t2) =
      Mesh.render_filled canvas vp mm vs t1 ++ Mesh.render_filled canvas vp mm vs t2 := by
  simp only [Mesh.render_filled, List.flatMap_append]

/-- C2: in `Mesh::render_filled`, the culling normal is the cross product of
the two model-matrix-transformed edges `(v1-v0) × (v2-v0)` dotted with the
fixed view direction `(0,0,1)` (spelled out in the hypothesis below, exactly
as the claim states it), and every triangle failing this cull test (negative
dot product) contributes no pixels to the output list: deleting it from the
triangle list leaves the output unchanged. -/
theorem render_filled_culls_backfaces (canvas : Canvas) (view_projection model_matrix : Mat4)
    (vertices : List Vertex) (l1 l2 : List Triangle) (tri : Triangle)
    (hcull :
      (Vec3.cross
        ⟨(model_matrix.transform_point
              (vertices.getD tri.v1 ⟨⟨0, 0, 0⟩, ⟨0, 0, 1⟩, ⟨0, 0⟩⟩).position).x -
            (model_matrix.transform_point
              (vertices.getD tri.v0 ⟨⟨0, 0, 0⟩, ⟨0, 0, 1⟩, ⟨0, 0⟩⟩).position).x,
          (model_matrix.transform_point
              (vertices.getD tri.v1 ⟨⟨0, 0, 0⟩, ⟨0, 0, 1⟩, ⟨0, 0⟩⟩).position).y -
            (model_matrix.transform_point
              (vertices.getD tri.v0 ⟨⟨0, 0, 0⟩, ⟨0, 0, 1⟩, ⟨0, 0⟩⟩).position).y,
          (model_matrix.transform_point
              (vertices.getD tri.v1 ⟨⟨0, 0, 0⟩, ⟨0, 0, 1⟩, ⟨0, 0⟩⟩).position).z -
            (model_matrix.transform_point
              (vertices.getD tri.v0 ⟨⟨0, 0, 0⟩, ⟨0, 0, 1⟩, ⟨0, 0⟩⟩).position).z⟩
        ⟨(model_matrix.transform_point
              (vertices.getD tri.v2 ⟨⟨0, 0, 0⟩, ⟨0, 0, 1⟩, ⟨0, 0⟩⟩).position).x -
            (model_matrix.transform_point
              (vertices.getD tri.v0 ⟨⟨0, 0, 0⟩, ⟨0, 0, 1⟩, ⟨0, 0⟩⟩).position).x,
          (model_matrix.transform_point
              (vertices.getD tri.v2 ⟨⟨0, 0, 0⟩, ⟨0, 0, 1⟩, ⟨0, 0⟩⟩).position).y -
            (model_matrix.transform_point
              (vertices.getD tri.v0 ⟨⟨0, 0, 0⟩, ⟨0, 0, 1⟩, ⟨0, 0⟩⟩).position).y,
          (model_matrix.transform_point
              (vertices.getD tri.v2 ⟨⟨0, 0, 0⟩, ⟨0, 0, 1⟩, ⟨0, 0⟩⟩).position).z -
            (model_matrix.transform_point
              (vertices.getD tri.v0 ⟨⟨0, 0, 0⟩, ⟨0, 0, 1⟩, ⟨0, 0⟩⟩).position).z⟩).dot
        ⟨0, 0, 1⟩ < 0) :
    Mesh.render_filled canvas view_projection model_matrix vertices (l1 ++ tri :: l2) =
      Mesh.render_filled canvas view_projection model_matrix vertices (l1 ++ l2) := by
  have hsplit : l1 ++ tri :: l2 = l1 ++ [tri] ++ l2 := by simp
  rw [hsplit, render_filled_append, render_filled_append, render_filled_append]
  have hnil : Mesh.render_filled canvas view_projection model_matrix vertices [tri] = [] := by
    unfold Mesh.render_filled
    simp only [List.flatMap_cons, List.flatMap_nil, List.append_nil]
    rw [if_pos hcull]
  rw [hnil]
  simp

/-- Witness for C2: a concrete back-facing triangle is culled. -/
theorem render_filled_culls_backfaces_witness :
    Mesh.render_filled (Canvas.new 10 10) Mat4.identity Mat4.identity
      [⟨⟨0, 0, 0⟩, ⟨0, 0, 1⟩, ⟨0, 0⟩⟩, ⟨⟨1, 0, 0⟩, ⟨0, 0, 1⟩, ⟨0, 0⟩⟩,
        ⟨⟨0, 1, 0⟩, ⟨0, 0, 1⟩, ⟨0, 0⟩⟩]
      ([] ++ ⟨0, 2, 1, ⟨255, 0, 0⟩⟩ :: []) =
    Mesh.render_filled (Canvas.new 10 10) Mat4.identity Mat4.identity
      [⟨⟨0, 0, 0⟩, ⟨0, 0, 1⟩, ⟨0, 0⟩⟩, ⟨⟨1, 0, 0⟩, ⟨0, 0, 1⟩, ⟨0, 0⟩⟩,
        ⟨⟨0, 1, 0⟩, ⟨0, 0, 1⟩, ⟨0, 0⟩⟩]
      ([] ++ []) :=
  render_filled_culls_backfaces (Canvas.new 10 10) Mat4.identity Mat4.identity
    [⟨⟨0, 0, 0⟩, ⟨0, 0, 1⟩, ⟨0, 0⟩⟩, ⟨⟨1, 0, 0⟩, ⟨0, 0, 1⟩, ⟨0, 0⟩⟩,
      ⟨⟨0, 1, 0⟩, ⟨0, 0, 1⟩, ⟨0, 0⟩⟩]
    [] [] ⟨0, 2, 1, ⟨255, 0, 0⟩⟩ (by with_unfolding_all decide)

theorem drawLineLoop_const_y (w h : ℕ) (color : Color) (dx : ℤ) (hdx : 0 ≤ dx) (y : ℤ)
    (hy0 : 0 ≤ y) (hy1 : y < (h : ℤ)) :
    ∀ (xs : List ℤ), (∀ x ∈ xs, 0 ≤ x ∧ x < (w : ℤ)) →
      drawLineLoop w h color false dx 0 (-1) xs y 0 =
        xs.map (fun x => ⟨x, y, color.r, color.g, color.b⟩) := by
  intro xs
  induction xs with
  | nil => intro _; rfl
  | cons x xs ih =>
    intro hmem
    obtain ⟨hx0, hx1⟩ := hmem x (List.mem_cons_self x xs)
    unfold drawLineLoop
    dsimp only
    rw [if_pos (show 0 ≤ x ∧ x < (w : ℤ) ∧ 0 ≤ y ∧ y < (h : ℤ) from ⟨hx0, hx1, hy0, hy1⟩)]
    rw [if_neg (show ¬((0 : ℤ) + 0 > dx) by omega)]
    rw [show ((0 : ℤ) + 0) = 0 from rfl]
    rw [ih (fun a ha => hmem a (List.mem_cons_of_mem x ha))]
    rfl

/-- C4, amended: for integer endpoints with `y0 == y1` whose endpoints lie
inside the canvas bounds (so no pixel of the run is dropped), `draw_line`
appends exactly `|x1-x0|+1` pixels, all with y-coordinate equal to the given
`y`.  (The unconditional claim fails: out-of-bounds coordinates are skipped,
see the counterexample.) -/
theorem draw_line_horizontal_count (canvas : Canvas) (color : Color) (x0 x1 y : ℤ)
    (hx0 : 0 ≤ x0 ∧ x0 < (canvas.width : ℤ)) (hx1 : 0 ≤ x1 ∧ x1 < (canvas.width : ℤ))
    (hy : 0 ≤ y ∧ y < (canvas.height : ℤ)) :
    (draw_line x0 y x1 y canvas color).length = (x1 - x0).natAbs + 1 ∧
    ∀ p ∈ draw_line x0 y x1 y canvas color, p.y = y := by
  have hloop : draw_line x0 y x1 y canvas color =
      (intRange (min x0 x1) (max x0 x1)).map
        (fun x => ⟨x, y, color.r, color.g, color.b⟩) := by
    unfold draw_line
    rw [show ((x0 - x1).natAbs < (y - y).natAbs : Bool) = false by
      simp [Int.sub_self]]
    simp only [Bool.false_eq_true, if_false]
    by_cases hgt : x0 > x1
    · simp only [if_pos hgt, ite_self]
      rw [if_neg (show ¬(y > y) by omega)]
      rw [show (|y - y| : ℤ) * 2 = 0 from by simp]
      rw [drawLineLoop_const_y canvas.width canvas.height color (x0 - x1) (by omega) y hy.1 hy.2
        (intRange x1 x0) (fun a ha => by
          rw [mem_intRange] at ha
          omega)]
      rw [show min x0 x1 = x1 by omega, show max x0 x1 = x0 by omega]
    · simp only [if_neg hgt, ite_self]
      rw [if_neg (show ¬(y > y) by omega)]
      rw [show (|y - y| : ℤ) * 2 = 0 from by simp]
      rw [drawLineLoop_const_y canvas.width canvas.height color (x1 - x0) (by omega) y hy.1 hy.2
        (intRange x0 x1) (fun a ha => by
          rw [mem_intRange] at ha
          omega)]
      rw [show min x0 x1 = x0 by omega, show max x0 x1 = x1 by omega]
  constructor
  · rw [hloop, List.length_map, length_intRange]
    omega
  · intro p hp
    rw [hloop, List.mem_map] at hp
    obtain ⟨a, _, rfl⟩ := hp
    rfl

/-- Witness for C4's amended theorem. -/
theorem draw_line_horizontal_count_witness :
    (draw_line 1 2 5 2 (Canvas.new 10 10) ⟨7, 8, 9⟩).length = ((5 : ℤ) - 1).natAbs + 1 :=
  (draw_line_horizontal_count (Canvas.new 10 10) ⟨7, 8, 9⟩ 1 5 2
    (by with_unfolding_all decide) (by with_unfolding_all decide)
    (by with_unfolding_all decide)).1

/-- C4, counterexample: a horizontal line from `(-2,0)` to `(1,0)` on a 4×4
canvas appends 2 pixels, not `|1-(-2)|+1 = 4` — off-canvas coordinates are
skipped, so the unconditional pixel count of the claim is wrong. -/
theorem draw_line_offcanvas_fewer_pixels :
    (draw_line (-2) 0 1 0 (Canvas.new 4 4) ⟨1, 2, 3⟩).length ≠ ((1 : ℤ) - (-2)).natAbs + 1 := by
  with_unfolding_all decide

/-- Well-formedness of a canvas: each channel buffer has exactly
`width * height` entries (true of every canvas built by `Canvas::new` and
preserved by all operations). -/
def Canvas.wf (c : Canvas) : Prop :=
  c.r.length = c.width * c.height ∧ c.g.length = c.width * c.height ∧
    c.b.length = c.width * c.height

/-- The invariant of C7: every tracked changed coordinate lies inside the
canvas bounds. -/
def Canvas.coordsInBounds (c : Canvas) : Prop :=
  ∀ p ∈ c.changed_coords,
    0 ≤ p.x ∧ p.x < (c.width : ℤ) ∧ 0 ≤ p.y ∧ p.y < (c.height : ℤ)

theorem getD_set_self (l : List ℕ) (i v : ℕ) (h : i < l.length) :
    (l.set i v).getD i 0 = v := by
  rw [List.getD_eq_getElem?_getD, List.getElem?_set_self]
  · rfl
  · simpa using h

theorem getD_set_ne (l : List ℕ) {i j : ℕ} (v : ℕ) (hne : i ≠ j) :
    (l.set i v).getD j 0 = l.getD j 0 := by
  rw [List.getD_eq_getElem?_getD, List.getElem?_set_ne hne, ← List.getD_eq_getElem?_getD]

theorem idx_lt_of_inRange {w h : ℕ} {x y : ℤ} (hx0 : 0 ≤ x) (hx1 : x < (w : ℤ))
    (hy0 : 0 ≤ y) (hy1 : y < (h : ℤ)) : y.toNat * w + x.toNat < w * h := by
  have hx : x.toNat < w := by omega
  have hy : y.toNat + 1 ≤ h := by omega
  calc y.toNat * w + x.toNat < y.toNat * w + w := by omega
    _ = (y.toNat + 1) * w := by ring
    _ ≤ h * w := Nat.mul_le_mul hy (le_refl w)
    _ = w * h := Nat.mul_comm h w

theorem idx_inj {w x1 y1 x2 y2 : ℕ} (hx1 : x1 < w) (hx2 : x2 < w)
    (h : y1 * w + x1 = y2 * w + x2) : y1 = y2 ∧ x1 = x2 := by
  have key : ∀ a1 b1 a2 b2 : ℕ, b1 < w → b2 < w → a1 < a2 →
      a1 * w + b1 < a2 * w + b2 := by
    intro a1 b1 a2 b2 hb1 hb2 ha
    calc a1 * w + b1 < a1 * w + w := by omega
      _ = (a1 + 1) * w := by ring
      _ ≤ a2 * w := Nat.mul_le_mul (by omega) (le_refl w)
      _ ≤ a2 * w + b2 := by omega
  have hy : y1 = y2 := by
    rcases Nat.lt_trichotomy y1 y2 with hlt | heq | hgt
    · exact absurd h (by have := key y1 x1 y2 x2 hx1 hx2 hlt; omega)
    · exact heq
    · exact absurd h (by have := key y2 x2 y1 x1 hx2 hx1 hgt; omega)
  subst hy
  exact ⟨rfl, Nat.add_left_cancel h⟩

theorem set_pixel_width (c : Canvas) (x y : ℤ) (r g b : ℕ) :
    (c.set_pixel x y r g b).width = c.width := by
  unfold Canvas.set_pixel
  split <;> rfl

theorem set_pixel_height (c : Canvas) (x y : ℤ) (r g b : ℕ) :
    (c.set_pixel x y r g b).height = c.height := by
  unfold Canvas.set_pixel
  split <;> rfl

theorem set_pixel_wf {c : Canvas} (hwf : c.wf) (x y : ℤ) (r g b : ℕ) :
    (c.set_pixel x y r g b).wf := by
  unfold Canvas.set_pixel Canvas.wf
  split
  · exact hwf
  · simpa [List.length_set] using hwf

theorem set_pixel_getD_target {c : Canvas} (hwf : c.wf) {x y : ℤ} (r g b : ℕ)
    (hx0 : 0 ≤ x) (hx1 : x < (c.width : ℤ)) (hy0 : 0 ≤ y) (hy1 : y < (c.height : ℤ)) :
    (c.set_pixel x y r g b).r.getD (y.toNat * c.width + x.toNat) 0 = r ∧
    (c.set_pixel x y r g b).g.getD (y.toNat * c.width + x.toNat) 0 = g ∧
    (c.set_pixel x y r g b).b.getD (y.toNat * c.width + x.toNat) 0 = b := by
  unfold Canvas.set_pixel
  rw [if_neg (by omega)]
  dsimp only
  have hidx := idx_lt_of_inRange hx0 hx1 hy0 hy1 (h := c.height)
  obtain ⟨hr, hg, hb⟩ := hwf
  exact ⟨getD_set_self _ _ _ (hr ▸ hidx), getD_set_self _ _ _ (hg ▸ hidx),
    getD_set_self _ _ _ (hb ▸ hidx)⟩

theorem set_pixel_getD_untouched (c : Canvas) (a b' : ℤ) (rv gv bv : ℕ) {x y : ℤ}
    (hx0 : 0 ≤ x) (hx1 : x < (c.width : ℤ)) (hy0 : 0 ≤ y) (hy1 : y < (c.height : ℤ))
    (hne : ¬(a = x ∧ b' = y)) :
    (c.set_pixel a b' rv gv bv).r.getD (y.toNat * c.width + x.toNat) 0 =
      c.r.getD (y.toNat * c.width + x.toNat) 0 ∧
    (c.set_pixel a b' rv gv bv).g.getD (y.toNat * c.width + x.toNat) 0 =
      c.g.getD (y.toNat * c.width + x.toNat) 0 ∧
    (c.set_pixel a b' rv gv bv).b.getD (y.toNat * c.width + x.toNat) 0 =
      c.b.getD (y.toNat * c.width + x.toNat) 0 := by
  unfold Canvas.set_pixel
  split
  · exact ⟨rfl, rfl, rfl⟩
  next hin =>
    dsimp only
    have hne' : b'.toNat * c.width + a.toNat ≠ y.toNat * c.width + x.toNat := by
      intro heq
      have ha : a.toNat < c.width := by omega
      have hx' : x.toNat < c.width := by omega
      obtain ⟨h1, h2⟩ := idx_inj ha hx' heq
      exact hne ⟨by omega, by omega⟩
    exact ⟨getD_set_ne _ _ hne', getD_set_ne _ _ hne', getD_set_ne _ _ hne'⟩

theorem setPixelsPopLoop_width : ∀ (l : List ColoredCoord) (c : Canvas),
    (setPixelsPopLoop c l).width = c.width := by
  intro l
  induction l with
  | nil => intro c; rfl
  | cons q t ih =>
    intro c
    unfold setPixelsPopLoop
    rw [ih, set_pixel_width]

theorem setPixelsPopLoop_height : ∀ (l : List ColoredCoord) (c : Canvas),
    (setPixelsPopLoop c l).height = c.height := by
  intro l
  induction l with
  | nil => intro c; rfl
  | cons q t ih =>
    intro c
    unfold setPixelsPopLoop
    rw [ih, set_pixel_height]

theorem setPixelsPopLoop_wf : ∀ (l : List ColoredCoord) {c : Canvas}, c.wf →
    (setPixelsPopLoop c l).wf := by
  intro l
  induction l with
  | nil => intro c h; exact h
  | cons q t ih =>
    intro c h
    unfold setPixelsPopLoop
    exact ih (set_pixel_wf h _ _ _ _ _)

theorem setPixelsPopLoop_eq_foldl : ∀ (l : List ColoredCoord) (c : Canvas),
    setPixelsPopLoop c l =
      l.foldl (fun canv p => canv.set_pixel p.x p.y p.r p.g p.b) c := by
  intro l
  induction l with
  | nil => intro c; rfl
  | cons q t ih =>
    intro c
    unfold setPixelsPopLoop
    rw [ih, List.foldl_cons]

/-- C10: `Canvas::set_pixels` consumes its input vector: after the call the
passed-in pixel vector is empty, and the resulting canvas is exactly the one
obtained by writing every element through `set_pixel`, in pop (reverse)
order. -/
theorem set_pixels_drains (c : Canvas) (pixels : List ColoredCoord) :
    (c.set_pixels pixels).2 = [] ∧
    (c.set_pixels pixels).1 =
      pixels.reverse.foldl (fun canv p => canv.set_pixel p.x p.y p.r p.g p.b) c :=
  ⟨rfl, setPixelsPopLoop_eq_foldl pixels.reverse c⟩

theorem setPixelsPopLoop_getD_untouched {x y : ℤ} :
    ∀ (l : List ColoredCoord) (c : Canvas), c.wf →
    0 ≤ x → x < (c.width : ℤ) → 0 ≤ y → y < (c.height : ℤ) →
    l.filter (fun q => q.x == x && q.y == y) = [] →
    (setPixelsPopLoop c l).r.getD (y.toNat * c.width + x.toNat) 0 =
      c.r.getD (y.toNat * c.width + x.toNat) 0 ∧
    (setPixelsPopLoop c l).g.getD (y.toNat * c.width + x.toNat) 0 =
      c.g.getD (y.toNat * c.width + x.toNat) 0 ∧
    (setPixelsPopLoop c l).b.getD (y.toNat * c.width + x.toNat) 0 =
      c.b.getD (y.toNat * c.width + x.toNat) 0 := by
  intro l
  induction l with
  | nil => intro c _ _ _ _ _ _; exact ⟨rfl, rfl, rfl⟩
  | cons q t ih =>
    intro c hwf hx0 hx1 hy0 hy1 hfe
    rw [List.filter_cons] at hfe
    have hq : (q.x == x && q.y == y) = false := by
      by_contra hq
      rw [Bool.not_eq_false] at hq
      rw [if_pos hq] at hfe
      exact List.cons_ne_nil _ _ hfe
    rw [hq] at hfe
    simp only [Bool.false_eq_true, if_false] at hfe
    have hqne : ¬(q.x = x ∧ q.y = y) := by
      intro ⟨h1, h2⟩
      simp [h1, h2] at hq
    unfold setPixelsPopLoop
    have hw := set_pixel_width c q.x q.y q.r q.g q.b
    have hh := set_pixel_height c q.x q.y q.r q.g q.b
    have step := set_pixel_getD_untouched c q.x q.y q.r q.g q.b hx0 hx1 hy0 hy1 hqne
    have rest := ih (c.set_pixel q.x q.y q.r q.g q.b) (set_pixel_wf hwf _ _ _ _ _)
      hx0 (by rw [hw]; exact hx1) hy0 (by rw [hh]; exact hy1) hfe
    rw [hw] at rest
    exact ⟨rest.1.trans step.1, rest.2.1.trans step.2.1, rest.2.2.trans step.2.2⟩

theorem setPixelsPopLoop_getD_lastHit {x y : ℤ} :
    ∀ (l : List ColoredCoord) (c : Canvas) (p : ColoredCoord), c.wf →
    0 ≤ x → x < (c.width : ℤ) → 0 ≤ y → y < (c.height : ℤ) →
    (l.filter (fun q => q.x == x && q.y == y)).getLast? = some p →
    (setPixelsPopLoop c l).r.getD (y.toNat * c.width + x.toNat) 0 = p.r ∧
    (setPixelsPopLoop c l).g.getD (y.toNat * c.width + x.toNat) 0 = p.g ∧
    (setPixelsPopLoop c l).b.getD (y.toNat * c.width + x.toNat) 0 = p.b := by
  intro l
  induction l with
  | nil => intro c p _ _ _ _ _ hlast; simp at hlast
  | cons q t ih =>
    intro c p hwf hx0 hx1 hy0 hy1 hlast
    rw [List.filter_cons] at hlast
    have hw := set_pixel_width c q.x q.y q.r q.g q.b
    have hh := set_pixel_height c q.x q.y q.r q.g q.b
    by_cases hfe : t.filter (fun q => q.x == x && q.y == y) = []
    · rw [hfe] at hlast
      have hq : (q.x == x && q.y == y) = true := by
        by_contra hq
        rw [Bool.not_eq_true] at hq
        rw [hq] at hlast
        simp at hlast
      rw [if_pos hq] at hlast
      simp only [List.getLast?_singleton, Option.some.injEq] at hlast
      subst hlast
      obtain ⟨hqx, hqy⟩ : q.x = x ∧ q.y = y := by
        rw [Bool.and_eq_true, beq_iff_eq, beq_iff_eq] at hq
        exact hq
      unfold setPixelsPopLoop
      rw [hqx, hqy]
      have rest := setPixelsPopLoop_getD_untouched t (c.set_pixel x y q.r q.g q.b)
        (set_pixel_wf hwf _ _ _ _ _) hx0 (by rw [set_pixel_width]; exact hx1) hy0
        (by rw [set_pixel_height]; exact hy1) hfe
      rw [set_pixel_width] at rest
      have target := set_pixel_getD_target hwf q.r q.g q.b hx0 hx1 hy0 hy1
      exact ⟨rest.1.trans target.1, rest.2.1.trans target.2.1, rest.2.2.trans target.2.2⟩
    · have hlast' : (t.filter (fun q => q.x == x && q.y == y)).getLast? = some p := by
        by_cases hq : (q.x == x && q.y == y) = true
        · rw [if_pos hq] at hlast
          rwa [show q :: t.filter (fun q => q.x == x && q.y == y) =
              [q] ++ t.filter (fun q => q.x == x && q.y == y) from rfl,
            List.getLast?_append_of_ne_nil _ hfe] at hlast
        · rw [Bool.not_eq_true] at hq
          rwa [hq] at hlast
      unfold setPixelsPopLoop
      have rest := ih (c.set_pixel q.x q.y q.r q.g q.b) p (set_pixel_wf hwf _ _ _ _ _)
        hx0 (by rw [hw]; exact hx1) hy0 (by rw [hh]; exact hy1) hlast'
      rw [hw] at rest
      exact rest

theorem clearCoordStep_width (canv : Canvas) (coord : Coord) :
    (clearCoordStep canv coord).width = canv.width := by
  unfold clearCoordStep
  split <;> rfl

theorem clearCoordStep_height (canv : Canvas) (coord : Coord) :
    (clearCoordStep canv coord).height = canv.height := by
  unfold clearCoordStep
  split <;> rfl

theorem clearCoordStep_changed (canv : Canvas) (coord : Coord) :
    (clearCoordStep canv coord).changed_coords = canv.changed_coords := by
  unfold clearCoordStep
  split <;> rfl

theorem clearCoordStep_wf {canv : Canvas} (hwf : canv.wf) (coord : Coord) :
    (clearCoordStep canv coord).wf := by
  unfold clearCoordStep Canvas.wf
  split
  · exact hwf
  · simpa [List.length_set] using hwf

theorem clearFoldl_width : ∀ (l : List Coord) (acc : Canvas),
    (l.foldl clearCoordStep acc).width = acc.width := by
  intro l
  induction l with
  | nil => intro acc; rfl
  | cons q t ih => intro acc; rw [List.foldl_cons, ih, clearCoordStep_width]

theorem clearFoldl_height : ∀ (l : List Coord) (acc : Canvas),
    (l.foldl clearCoordStep acc).height = acc.height := by
  intro l
  induction l with
  | nil => intro acc; rfl
  | cons q t ih => intro acc; rw [List.foldl_cons, ih, clearCoordStep_height]

theorem clearFoldl_changed : ∀ (l : List Coord) (acc : Canvas),
    (l.foldl clearCoordStep acc).changed_coords = acc.changed_coords := by
  intro l
  induction l with
  | nil => intro acc; rfl
  | cons q t ih => intro acc; rw [List.foldl_cons, ih, clearCoordStep_changed]

theorem clearFoldl_wf : ∀ (l : List Coord) {acc : Canvas}, acc.wf →
    (l.foldl clearCoordStep acc).wf := by
  intro l
  induction l with
  | nil => intro acc h; exact h
  | cons q t ih => intro acc h; rw [List.foldl_cons]; exact ih (clearCoordStep_wf h q)

theorem clear_width (c : Canvas) : c.clear.width = c.width :=
  clearFoldl_width c.changed_coords c

theorem clear_height (c : Canvas) : c.clear.height = c.height :=
  clearFoldl_height c.changed_coords c

theorem clear_changed (c : Canvas) : c.clear.changed_coords = c.changed_coords :=
  clearFoldl_changed c.changed_coords c

theorem clear_wf {c : Canvas} (hwf : c.wf) : c.clear.wf :=
  clearFoldl_wf c.changed_coords hwf

theorem present_buffers (c : Canvas) :
    c.present.r = c.r ∧ c.present.g = c.g ∧ c.present.b = c.b :=
  ⟨rfl, rfl, rfl⟩

/-- C1, counterexample: commit a frame whose pixel list holds two pixels for
canvas coordinate `(0,0)` — first red `(255,0,0)`, then blue `(0,0,255)`
appended later.  The final stored color is the EARLIER red pixel, not the
later blue one: `set_pixels` pops from the back of the list, so the claim
that the later-appended pixel determines the final color is false. -/
theorem render_commit_later_pixel_loses :
    (Renderer.render_commit (Canvas.new 2 2)
      [⟨0, 0, 255, 0, 0⟩, ⟨0, 0, 0, 0, 255⟩]).r.getD 0 0 = 255 ∧
    (Renderer.render_commit (Canvas.new 2 2)
      [⟨0, 0, 255, 0, 0⟩, ⟨0, 0, 0, 0, 255⟩]).b.getD 0 0 ≠ 255 := by
  with_unfolding_all decide

/-- C1, amended: for every frame committed by `Renderer::render`, when pixels
in the frame's pixel list target the same in-bounds canvas coordinate, the
pixel appended EARLIEST to the list (`find?` returns the first match)
determines the final color stored in the canvas buffers — `set_pixels` drains
the vector from the back, so earlier meshes are drawn on top of later
ones. -/
theorem render_commit_first_pixel_wins (canvas : Canvas) (pixels : List ColoredCoord)
    (x y : ℤ) (p : ColoredCoord) (hwf : canvas.wf)
    (hx0 : 0 ≤ x) (hx1 : x < (canvas.width : ℤ)) (hy0 : 0 ≤ y) (hy1 : y < (canvas.height : ℤ))
    (hfind : pixels.find? (fun q => q.x == x && q.y == y) = some p) :
    (Renderer.render_commit canvas pixels).r.getD (y.toNat * canvas.width + x.toNat) 0 = p.r ∧
    (Renderer.render_commit canvas pixels).g.getD (y.toNat * canvas.width + x.toNat) 0 = p.g ∧
    (Renderer.render_commit canvas pixels).b.getD (y.toNat * canvas.width + x.toNat) 0 = p.b := by
  have hlast : (pixels.reverse.filter (fun q => q.x == x && q.y == y)).getLast? = some p := by
    rw [List.filter_reverse, List.getLast?_reverse, List.filter_head?]
    exact hfind
  have main := setPixelsPopLoop_getD_lastHit pixels.reverse canvas.clear p
    (clear_wf hwf) hx0 (by rw [clear_width]; exact hx1) hy0
    (by rw [clear_height]; exact hy1) hlast
  rw [clear_width] at main
  unfold Renderer.render_commit Canvas.set_pixels
  exact main

instance (c : Canvas) : Decidable c.wf := by
  unfold Canvas.wf
  infer_instance

instance (c : Canvas) : Decidable c.coordsInBounds := by
  unfold Canvas.coordsInBounds
  infer_instance

/-- Witness for C1's amended theorem. -/
theorem render_commit_first_pixel_wins_witness :
    (Renderer.render_commit (Canvas.new 2 2)
      [⟨0, 0, 255, 0, 0⟩, ⟨0, 0, 0, 0, 255⟩]).r.getD 0 0 = 255 :=
  (render_commit_first_pixel_wins (Canvas.new 2 2)
    [⟨0, 0, 255, 0, 0⟩, ⟨0, 0, 0, 0, 255⟩] 0 0 ⟨0, 0, 255, 0, 0⟩
    (by decide) (by decide) (by decide) (by decide) (by decide) (by decide)).1

/-- C6: after `Canvas::present`, a coordinate that was in `changed_coords`
before the call remains in `changed_coords` iff its stored color at index
`y*width+x` is not fully black; fully-black coordinates are pruned. -/
theorem present_retains_iff_not_black (c : Canvas) (p : Coord)
    (hmem : p ∈ c.changed_coords)
    (hx : 0 ≤ p.x ∧ p.x < (c.width : ℤ)) (hy : 0 ≤ p.y ∧ p.y < (c.height : ℤ)) :
    p ∈ c.present.changed_coords ↔
      ¬(c.r.getD (p.y.toNat * c.width + p.x.toNat) 0 = 0 ∧
        c.g.getD (p.y.toNat * c.width + p.x.toNat) 0 = 0 ∧
        c.b.getD (p.y.toNat * c.width + p.x.toNat) 0 = 0) := by
  have key : ∀ a b c : ℕ, (!(a == 0 && b == 0 && c == 0)) = true ↔
      ¬(a = 0 ∧ b = 0 ∧ c = 0) := by
    intro a b c
    simp
    tauto
  unfold Canvas.present
  rw [List.mem_filter]
  simp only [hmem, true_and]
  exact key _ _ _

/-- Witness for C6: a freshly written non-black pixel survives `present`. -/
theorem present_retains_iff_not_black_witness :
    (⟨0, 0⟩ : Coord) ∈ ((Canvas.new 2 2).set_pixel 0 0 5 5 5).present.changed_coords :=
  (present_retains_iff_not_black ((Canvas.new 2 2).set_pixel 0 0 5 5 5) ⟨0, 0⟩
    (by decide) (by decide) (by decide)).mpr (by decide)

theorem coordsInBounds_set_pixel {c : Canvas} (hc : c.coordsInBounds) (x y : ℤ) (r g b : ℕ) :
    (c.set_pixel x y r g b).coordsInBounds := by
  unfold Canvas.set_pixel
  split
  next hout => exact hc
  next hin =>
    intro p hp
    dsimp only at hp ⊢
    rw [List.mem_append] at hp
    rcases hp with hp | hp
    · exact hc p hp
    · rw [List.mem_singleton] at hp
      subst hp
      dsimp only
      omega

theorem setPixelsPopLoop_coordsInBounds : ∀ (l : List ColoredCoord) {c : Canvas},
    c.coordsInBounds → (setPixelsPopLoop c l).coordsInBounds := by
  intro l
  induction l with
  | nil => intro c h; exact h
  | cons q t ih =>
    intro c h
    unfold setPixelsPopLoop
    exact ih (coordsInBounds_set_pixel h _ _ _ _ _)

/-- C7: every `Canvas` operation (`new`, `init`, `set_pixel`, `set_pixels`,
`clear`, `present`) preserves the invariant that every coordinate in
`changed_coords` satisfies `0 ≤ x < width` and `0 ≤ y < height`; in
particular `set_pixel` called with an out-of-range coordinate leaves the
canvas (buffers and changed list) unchanged. -/
theorem canvas_ops_preserve_coord_bounds (w h : ℕ) (c : Canvas) (x y : ℤ) (r g b : ℕ)
    (ps : List ColoredCoord) :
    (Canvas.new w h).coordsInBounds ∧
    (c.coordsInBounds → c.init.coordsInBounds) ∧
    (c.coordsInBounds → (c.set_pixel x y r g b).coordsInBounds) ∧
    (c.coordsInBounds → (c.set_pixels ps).1.coordsInBounds) ∧
    (c.coordsInBounds → c.clear.coordsInBounds) ∧
    (c.coordsInBounds → c.present.coordsInBounds) ∧
    ((x < 0 ∨ (c.width : ℤ) ≤ x ∨ y < 0 ∨ (c.height : ℤ) ≤ y) → c.set_pixel x y r g b = c) := by
  refine ⟨?_, ?_, ?_, ?_, ?_, ?_, ?_⟩
  · intro p hp
    simp [Canvas.new] at hp
  · intro _ p hp
    simp [Canvas.init] at hp
  · intro hc
    exact coordsInBounds_set_pixel hc x y r g b
  · intro hc
    exact setPixelsPopLoop_coordsInBounds ps.reverse hc
  · intro hc
    unfold Canvas.coordsInBounds
    rw [clear_changed, clear_width, clear_height]
    exact hc
  · intro hc p hp
    unfold Canvas.present at hp
    dsimp only at hp
    exact hc p (List.mem_of_mem_filter hp)
  · intro hout
    unfold Canvas.set_pixel
    rw [if_pos hout]

/-- Witness for C7: concrete in-range and out-of-range `set_pixel` calls. -/
theorem canvas_ops_preserve_coord_bounds_witness :
    ((Canvas.new 3 2).set_pixel 1 1 7 7 7).coordsInBounds ∧
    (Canvas.new 3 2).set_pixel 5 1 7 7 7 = Canvas.new 3 2 :=
  ⟨(canvas_ops_preserve_coord_bounds 3 2 (Canvas.new 3 2) 1 1 7 7 7 []).2.2.1 (by decide),
    (canvas_ops_preserve_coord_bounds 3 2 (Canvas.new 3 2) 5 1 7 7 7 []).2.2.2.2.2.2
      (by decide)⟩
